import Mathlib

/-!
# Verification of the arbitrage detection engine of `Arb-sports-bot`

Shallow embedding of `src/utils/arbitrage.py` (and the configuration line of
`src/main.py` it interacts with).  Python floats are modelled by `ℚ`; a raw
JSON price value is modelled by `PriceVal`, distinguishing values that
`float(...)` turns into a finite number from non-finite floats (`inf`/`nan`)
and from values on which `float(...)` raises.  Python dicts built by
progressive insertion are modelled by association lists with
insertion-ordered update (`dictInsert`), matching CPython's ordered dicts.
-/

namespace ArbBot

/-- The raw `price` field of an outcome, as seen by `float(price)` in
`_best_odds_by_outcome`:
* `num q` — `float(price)` succeeds and yields the finite value `q`;
* `nonfinite` — `float(price)` succeeds but yields `inf`, `-inf` or `nan`
  (rejected by the `isfinite` test);
* `unparseable` — `float(price)` raises (rejected by the `try/except`). -/
inductive PriceVal where
  | num (q : ℚ)
  | nonfinite
  | unparseable
deriving DecidableEq, Repr

/-- One entry of a market's `outcomes` list: `out.get("name")` and
`out.get("price")`, each possibly absent. -/
structure Outcome where
  name : Option String
  price : Option PriceVal
deriving DecidableEq, Repr

/-- One entry of a bookmaker's `markets` list: `market.get("key")` and its
`outcomes`. -/
structure Market where
  key : Option String
  outcomes : List Outcome
deriving DecidableEq, Repr

/-- One entry of the event's `bookmakers` list: `bm.get("title")`,
`bm.get("key")` and the `markets`. -/
structure Bookmaker where
  title : Option String
  key : Option String
  markets : List Market
deriving DecidableEq, Repr

/-- An event from The Odds API, with the fields `find_arbs_for_event`
reads.  `bookmakers` is `none` when the key is absent or `null`. -/
structure Event where
  id : Option String
  sport_title : Option String
  commence_time : Option String
  home_team : Option String
  away_team : Option String
  bookmakers : Option (List Bookmaker)
deriving DecidableEq, Repr

/-- Python's `a or b` on an optional string: `None` and `""` are falsy. -/
def pyOrStr (a : Option String) (b : String) : String :=
  match a with
  | some s => if s = "" then b else s
  | none => b

/-- `str.lower()`, modelled character-wise (bookmaker identifiers are
ASCII, where Python's `.lower()` and `Char.toLower` agree). -/
def strLower (s : String) : String :=
  ⟨s.data.map Char.toLower⟩

/-- `(bm.get("title") or bm.get("key") or "").lower()`. -/
def bmName (bm : Bookmaker) : String :=
  strLower (pyOrStr bm.title (pyOrStr bm.key ""))

/-- Lookup in an insertion-ordered dict modelled as an association list. -/
def dictLookup {α : Type} (d : List (String × α)) (k : String) : Option α :=
  match d with
  | [] => none
  | (k', v') :: rest => if k' = k then some v' else dictLookup rest k

/-- `d[k] = v` on a CPython dict: update in place if the key exists,
append otherwise. -/
def dictInsert {α : Type} (d : List (String × α)) (k : String) (v : α) :
    List (String × α) :=
  match d with
  | [] => [(k, v)]
  | (k', v') :: rest =>
      if k' = k then (k, v) :: rest else (k', v') :: dictInsert rest k v

/-- The filtering applied to one outcome entry inside the inner loop of
`_best_odds_by_outcome` (lines skipping `None` name/price, unparseable,
non-finite and `<= 1.0` prices), paired with the bookmaker name.  Returns
the qualifying listing `(outcome_name, price, bookmaker_name)` or `none`
when the loop `continue`s. -/
def qualifyOutcome (name : String) (out : Outcome) :
    Option (String × ℚ × String) :=
  match out.name, out.price with
  | some o, some (PriceVal.num q) => if q ≤ 1 then none else some (o, q, name)
  | _, _ => none

/-- The state update of `_best_odds_by_outcome` for one qualifying listing:
`if outcome_name not in best or price > best[outcome_name]: best[...] = price;
source[...] = name`. -/
def stepListing (st : List (String × ℚ) × List (String × String))
    (l : String × ℚ × String) :
    List (String × ℚ) × List (String × String) :=
  match dictLookup st.1 l.1 with
  | none => (dictInsert st.1 l.1 l.2.1, dictInsert st.2 l.1 l.2.2)
  | some cur =>
      if cur < l.2.1 then (dictInsert st.1 l.1 l.2.1, dictInsert st.2 l.1 l.2.2)
      else st

/-- Body of one bookmaker iteration in `_best_odds_by_outcome`: the
whitelist test and the two inner loops over markets (keeping only `h2h`)
and outcomes. -/
def processBookmaker (wl : List String)
    (st : List (String × ℚ) × List (String × String)) (bm : Bookmaker) :
    List (String × ℚ) × List (String × String) :=
  let name := bmName bm
  if wl ≠ [] ∧ name ∉ wl then st
  else
    bm.markets.foldl
      (fun st m =>
        if m.key = some "h2h" then
          m.outcomes.foldl
            (fun st out =>
              match qualifyOutcome name out with
              | none => st
              | some l => stepListing st l)
            st
        else st)
      st

/-- `_best_odds_by_outcome`: best decimal odds per outcome and which book
offered it.  The whitelist is modelled as a list of strings (`[]` is the
empty set, membership is the set test). -/
def bestOddsByOutcome (bms : List Bookmaker) (wl : List String) :
    List (String × ℚ) × List (String × String) :=
  bms.foldl (processBookmaker wl) ([], [])

/-- `_arb_edge`: `(1.0 - inv_sum) * 100.0`, percent. -/
def arbEdge (best : List (String × ℚ)) : ℚ :=
  let inv_sum := (best.map (fun kv => 1 / kv.2)).sum
  (1 - inv_sum) * 100

/-- `_stakes_for_edge`: the dict comprehensions
`inv = {k: 1.0/v}`, `stakes = {k: bankroll * inv_v / inv_sum}`
preserve the keys and order of `best`. -/
def stakesForEdge (best : List (String × ℚ)) (bankroll : ℚ) :
    List (String × ℚ) :=
  let inv := best.map (fun kv => (kv.1, 1 / kv.2))
  let inv_sum := (inv.map (fun kv => kv.2)).sum
  inv.map (fun kv => (kv.1, bankroll * kv.2 / inv_sum))

/-- Python's `round` (banker's rounding, half to even) at integer
precision. -/
def roundHalfEven (q : ℚ) : ℤ :=
  let f := ⌊q⌋
  let r := q - (f : ℚ)
  if r < 1 / 2 then f
  else if r > 1 / 2 then f + 1
  else if f % 2 = 0 then f else f + 1

/-- `round(x, n)` for `n` decimal places (presentation rounding of edge
and stakes). -/
def roundTo (n : ℕ) (q : ℚ) : ℚ :=
  (roundHalfEven (q * 10 ^ n) : ℚ) / 10 ^ n

/-- The arbitrage-opportunity record returned by `find_arbs_for_event`. -/
structure Arb where
  event_id : Option String
  sport_title : Option String
  commence_time : Option String
  home : Option String
  away : Option String
  best_odds : List (String × ℚ)
  best_books : List (String × String)
  edge_pct : ℚ
  stakes_100 : List (String × ℚ)
deriving DecidableEq, Repr

/-- `find_arbs_for_event(event, min_edge_pct=0.25, bookmaker_whitelist=None)`.
`bookmaker_whitelist = bookmaker_whitelist or set()` makes `None` and the
empty set coincide, so the whitelist is a plain list with `[]` for both. -/
def findArbsForEvent (event : Event) (min_edge_pct : ℚ) (wl : List String) :
    List Arb :=
  let bms := event.bookmakers.getD []
  if bms = [] then []
  else
    let bs := bestOddsByOutcome bms wl
    if bs.1.length = 2 ∨ bs.1.length = 3 then
      let edge := arbEdge bs.1
      if edge ≤ min_edge_pct then []
      else
        let stakes := stakesForEdge bs.1 100
        [{ event_id := event.id
           sport_title := event.sport_title
           commence_time := event.commence_time
           home := event.home_team
           away := event.away_team
           best_odds := bs.1
           best_books := bs.2
           edge_pct := roundTo 4 edge
           stakes_100 := stakes.map (fun kv => (kv.1, roundTo 2 kv.2)) }]
    else []

/-- The default value of the `min_edge_pct` parameter in the source:
`def find_arbs_for_event(event, min_edge_pct: float = 0.25, ...)`. -/
def defaultMinEdgePct : ℚ := 25 / 100

/-- Calling the engine without supplying a threshold uses the parameter
default `0.25`. -/
def findArbsForEventDefault (event : Event) (wl : List String) : List Arb :=
  findArbsForEvent event defaultMinEdgePct wl

/-- `MIN_EDGE_PCT = float(os.getenv("MIN_EDGE_PCT", "0.5"))` in
`src/main.py`: the configured threshold, `0.5` when the environment does
not set one.  The environment value is modelled post-parse as a rational. -/
def MIN_EDGE_PCT (env : Option ℚ) : ℚ :=
  env.getD (5 / 10)

/-! ## Flattened view of the listing iteration

`_best_odds_by_outcome` walks bookmakers, then `h2h` markets, then
outcomes, in order.  The following definitions flatten that walk into the
sequence of qualifying listings `(outcome, price, bookmaker)` it visits;
`bestOddsByOutcome` is proved equal to a single left fold of `stepListing`
over this sequence. -/

/-- The whitelist test of the source, positively:
`not (bookmaker_whitelist and name not in bookmaker_whitelist)`. -/
def allowedBM (wl : List String) (bm : Bookmaker) : Prop :=
  wl = [] ∨ bmName bm ∈ wl

instance (wl : List String) (bm : Bookmaker) : Decidable (allowedBM wl bm) :=
  inferInstanceAs (Decidable (_ ∨ _))

/-- Qualifying listings contributed by a list of markets, in visit order. -/
def marketsListings (name : String) (mkts : List Market) :
    List (String × ℚ × String) :=
  (mkts.filter (fun m => m.key = some "h2h")).flatMap
    (fun m => m.outcomes.filterMap (qualifyOutcome name))

/-- Qualifying listings of one bookmaker. -/
def bmListings (bm : Bookmaker) : List (String × ℚ × String) :=
  marketsListings (bmName bm) bm.markets

/-- All qualifying listings of the event, in the order the source visits
them: whitelist-allowed bookmakers in order, their `h2h` markets in order,
their outcomes in order, keeping only parseable finite prices `> 1`. -/
def qualifyingListings (bms : List Bookmaker) (wl : List String) :
    List (String × ℚ × String) :=
  (bms.filter (fun bm => decide (allowedBM wl bm))).flatMap bmListings

/-- Maximum over `none`-able accumulators. -/
def optMax (a b : Option ℚ) : Option ℚ :=
  match a, b with
  | none, b => b
  | some x, none => some x
  | some x, some y => some (max x y)

/-- Maximum qualifying price quoted for outcome `o` in a listing sequence
(`none` when no listing mentions `o`). -/
def maxPriceFor (o : String) : List (String × ℚ × String) → Option ℚ
  | [] => none
  | l :: ls =>
      if l.1 = o then
        match maxPriceFor o ls with
        | none => some l.2.1
        | some m => some (max l.2.1 m)
      else maxPriceFor o ls

/-- The bookmaker of the first listing for outcome `o` quoting exactly
price `m`. -/
def firstSourceAt (o : String) (m : ℚ) :
    List (String × ℚ × String) → Option String
  | [] => none
  | l :: ls =>
      if l.1 = o ∧ l.2.1 = m then some l.2.2 else firstSourceAt o m ls

/-- The `source` entry for `o` after folding `ls` over a state whose best
entry for `o` is `b0` and source entry is `s0`. -/
def srcAfter (b0 : Option ℚ) (s0 : Option String) (o : String)
    (ls : List (String × ℚ × String)) : Option String :=
  match maxPriceFor o ls with
  | none => s0
  | some m =>
      match b0 with
      | none => firstSourceAt o m ls
      | some c => if c < m then firstSourceAt o m ls else s0

/-! ## Concrete fixtures used to instantiate theorems -/

/-- A bookmaker quoting one `h2h` market with the given outcome prices. -/
def fixtureBM (t : String) (outs : List (String × ℚ)) : Bookmaker :=
  { title := some t, key := none,
    markets := [{ key := some "h2h",
                  outcomes := outs.map (fun p =>
                    { name := some p.1, price := some (PriceVal.num p.2) }) }] }

/-- An event holding the given bookmakers. -/
def fixtureEvent (bms : List Bookmaker) : Event :=
  { id := some "ev", sport_title := some "Soccer", commence_time := none,
    home_team := some "H", away_team := some "A", bookmakers := some bms }

/-- Two-way event with best prices 2.10 / 2.05 (positive edge ≈ 3.6%). -/
def evTwoWay : Event :=
  fixtureEvent [fixtureBM "x" [("A", mkRat 21 10)],
    fixtureBM "y" [("B", mkRat 41 20)]]

/-- Two-way event with both prices 2.0: edge exactly 0. -/
def evZeroEdge : Event :=
  fixtureEvent [fixtureBM "x" [("A", 2), ("B", 2)]]

/-- Two-way event with prices 2 and 1000/497: edge exactly 0.3%, strictly
between the engine's parameter default 0.25 and the configured default 0.5. -/
def evMidEdge : Event :=
  fixtureEvent [fixtureBM "x" [("A", 2), ("B", mkRat 1000 497)]]

/-- A single bookmaker titled `Bet365` quoting outcome `A` at 2.0. -/
def bmsBet365 : List Bookmaker := [fixtureBM "Bet365" [("A", 2)]]

/-- Outcome `A` priced exactly 1.0 by one book (would otherwise be best)
and 1.5 by another. -/
def bmsPriceOne : List Bookmaker :=
  [fixtureBM "x" [("A", 1)], fixtureBM "y" [("A", mkRat 3 2)]]

/-- Two books tie on price 2.0 for outcome `A`; `x` comes first. -/
def bmsTie : List Bookmaker :=
  [fixtureBM "x" [("A", 2)], fixtureBM "y" [("A", 2)]]

/-! ## Dictionary lemmas -/

theorem dictLookup_insert_self {α : Type} (d : List (String × α)) (k : String)
    (v : α) : dictLookup (dictInsert d k v) k = some v := by
  induction d with
  | nil => simp [dictInsert, dictLookup]
  | cons hd tl ih =>
      obtain ⟨k', v'⟩ := hd
      by_cases h : k' = k
      · simp [dictInsert, h, dictLookup]
      · simp [dictInsert, h, dictLookup, ih]

theorem dictLookup_insert_ne {α : Type} (d : List (String × α))
    (k k' : String) (v : α) (h : k' ≠ k) :
    dictLookup (dictInsert d k v) k' = dictLookup d k' := by
  induction d with
  | nil => simp [dictInsert, dictLookup, Ne.symm h]
  | cons hd tl ih =>
      obtain ⟨k0, v0⟩ := hd
      by_cases h0 : k0 = k
      · subst h0
        simp [dictInsert, dictLookup, Ne.symm h]
      · simp [dictInsert, h0, dictLookup, ih]

theorem mem_of_dictLookup_eq_some {α : Type} {d : List (String × α)}
    {k : String} {v : α} (h : dictLookup d k = some v) : (k, v) ∈ d := by
  induction d with
  | nil => simp [dictLookup] at h
  | cons hd tl ih =>
      obtain ⟨k0, v0⟩ := hd
      by_cases h0 : k0 = k
      · subst h0
        simp [dictLookup] at h
        simp [h]
      · simp [dictLookup, h0] at h
        exact List.mem_cons_of_mem _ (ih h)

theorem dictLookup_eq_some_of_mem {α : Type} {d : List (String × α)}
    {k : String} {v : α} (hnd : (d.map Prod.fst).Nodup) (h : (k, v) ∈ d) :
    dictLookup d k = some v := by
  induction d with
  | nil => simp at h
  | cons hd tl ih =>
      obtain ⟨k0, v0⟩ := hd
      simp only [List.map_cons, List.nodup_cons] at hnd
      rcases List.mem_cons.mp h with h1 | h1
      · rw [Prod.mk.injEq] at h1
        obtain ⟨hk, hv⟩ := h1
        subst hk
        subst hv
        simp [dictLookup]
      · have hk0 : k0 ≠ k := by
          intro he
          subst he
          exact hnd.1 (List.mem_map.mpr ⟨(k0, v), h1, rfl⟩)
        simp [dictLookup, hk0, ih hnd.2 h1]

theorem dictLookup_eq_none_iff {α : Type} (d : List (String × α))
    (k : String) : dictLookup d k = none ↔ k ∉ d.map Prod.fst := by
  induction d with
  | nil => simp [dictLookup]
  | cons hd tl ih =>
      obtain ⟨k0, v0⟩ := hd
      by_cases h0 : k0 = k
      · subst h0
        simp [dictLookup]
      · simp [dictLookup, h0, ih, Ne.symm h0]

theorem dictInsert_keys {α : Type} (d : List (String × α)) (k : String)
    (v : α) :
    (dictInsert d k v).map Prod.fst =
      if k ∈ d.map Prod.fst then d.map Prod.fst else d.map Prod.fst ++ [k] := by
  induction d with
  | nil => simp [dictInsert]
  | cons hd tl ih =>
      obtain ⟨k0, v0⟩ := hd
      by_cases h0 : k0 = k
      · subst h0
        simp [dictInsert]
      · simp only [dictInsert, if_neg h0, List.map_cons, ih, List.mem_cons]
        by_cases hm : k ∈ tl.map Prod.fst
        · simp [hm, Ne.symm h0]
        · simp [hm, Ne.symm h0]

theorem dictInsert_keys_nodup {α : Type} {d : List (String × α)}
    (hnd : (d.map Prod.fst).Nodup) (k : String) (v : α) :
    ((dictInsert d k v).map Prod.fst).Nodup := by
  rw [dictInsert_keys]
  by_cases hm : k ∈ d.map Prod.fst
  · simpa [hm] using hnd
  · rw [if_neg hm, List.nodup_append]
    refine ⟨hnd, List.nodup_singleton k, ?_⟩
    intro a ha hal
    simp only [List.mem_singleton] at hal
    subst hal
    exact hm ha

/-! ## Flattening `_best_odds_by_outcome` into one fold over listings -/

theorem foldl_outcomes_eq (name : String) (outs : List Outcome)
    (st : List (String × ℚ) × List (String × String)) :
    outs.foldl
      (fun st out =>
        match qualifyOutcome name out with
        | none => st
        | some l => stepListing st l) st
    = (outs.filterMap (qualifyOutcome name)).foldl stepListing st := by
  induction outs generalizing st with
  | nil => rfl
  | cons o os ih =>
      cases h : qualifyOutcome name o <;>
        simp [List.filterMap_cons, h, ih]

theorem foldl_markets_eq (name : String) (mkts : List Market)
    (st : List (String × ℚ) × List (String × String)) :
    mkts.foldl
      (fun st m =>
        if m.key = some "h2h" then
          m.outcomes.foldl
            (fun st out =>
              match qualifyOutcome name out with
              | none => st
              | some l => stepListing st l)
            st
        else st) st
    = (marketsListings name mkts).foldl stepListing st := by
  induction mkts generalizing st with
  | nil => rfl
  | cons m ms ih =>
      rw [List.foldl_cons]
      by_cases h : m.key = some "h2h"
      · rw [if_pos h, foldl_outcomes_eq, ih]
        have hsplit : marketsListings name (m :: ms) =
            m.outcomes.filterMap (qualifyOutcome name) ++
              marketsListings name ms := by
          unfold marketsListings
          rw [List.filter_cons, if_pos (by simp [h]), List.flatMap_cons]
        rw [hsplit, List.foldl_append]
      · rw [if_neg h, ih]
        have hsplit : marketsListings name (m :: ms) = marketsListings name ms := by
          unfold marketsListings
          rw [List.filter_cons, if_neg (by simp [h])]
        rw [hsplit]

theorem processBookmaker_eq (wl : List String)
    (st : List (String × ℚ) × List (String × String)) (bm : Bookmaker) :
    processBookmaker wl st bm =
      if allowedBM wl bm then (bmListings bm).foldl stepListing st else st := by
  unfold processBookmaker
  by_cases h : wl ≠ [] ∧ bmName bm ∉ wl
  · have ha : ¬ allowedBM wl bm := by
      unfold allowedBM
      push_neg
      exact ⟨h.1, h.2⟩
    simp [h, ha]
  · have ha : allowedBM wl bm := by
      unfold allowedBM
      by_cases hw : wl = []
      · exact Or.inl hw
      · right
        by_contra hm
        exact h ⟨hw, hm⟩
    simp only [if_neg h, if_pos ha]
    exact foldl_markets_eq (bmName bm) bm.markets st

theorem qualifyingListings_cons (bm : Bookmaker) (bms : List Bookmaker)
    (wl : List String) :
    qualifyingListings (bm :: bms) wl =
      if allowedBM wl bm then bmListings bm ++ qualifyingListings bms wl
      else qualifyingListings bms wl := by
  unfold qualifyingListings
  by_cases h : allowedBM wl bm <;> simp [List.filter_cons, h]

theorem bestOdds_eq_foldl (bms : List Bookmaker) (wl : List String) :
    bestOddsByOutcome bms wl =
      (qualifyingListings bms wl).foldl stepListing ([], []) := by
  suffices h : ∀ st, bms.foldl (processBookmaker wl) st =
      (qualifyingListings bms wl).foldl stepListing st from h ([], [])
  induction bms with
  | nil => intro st; rfl
  | cons bm bms ih =>
      intro st
      rw [List.foldl_cons, processBookmaker_eq, qualifyingListings_cons]
      by_cases h : allowedBM wl bm
      · rw [if_pos h, if_pos h, List.foldl_append, ih]
      · rw [if_neg h, if_neg h, ih]

/-! ## What one `stepListing` does to the two dictionaries -/

theorem stepListing_fst_ne (st : List (String × ℚ) × List (String × String))
    (l : String × ℚ × String) (o : String) (h : o ≠ l.1) :
    dictLookup (stepListing st l).1 o = dictLookup st.1 o := by
  unfold stepListing
  rcases hb : dictLookup st.1 l.1 with _ | c
  · simp [dictLookup_insert_ne _ _ _ _ h]
  · by_cases hc : c < l.2.1
    · simp [hc, dictLookup_insert_ne _ _ _ _ h]
    · simp [hc]

theorem stepListing_snd_ne (st : List (String × ℚ) × List (String × String))
    (l : String × ℚ × String) (o : String) (h : o ≠ l.1) :
    dictLookup (stepListing st l).2 o = dictLookup st.2 o := by
  unfold stepListing
  rcases hb : dictLookup st.1 l.1 with _ | c
  · simp [dictLookup_insert_ne _ _ _ _ h]
  · by_cases hc : c < l.2.1
    · simp [hc, dictLookup_insert_ne _ _ _ _ h]
    · simp [hc]

theorem stepListing_fst_self (st : List (String × ℚ) × List (String × String))
    (lo : String) (lp : ℚ) (lsrc : String) :
    dictLookup (stepListing st (lo, lp, lsrc)).1 lo =
      some (match dictLookup st.1 lo with
            | none => lp
            | some c => max c lp) := by
  unfold stepListing
  rcases hb : dictLookup st.1 lo with _ | c
  · simp [dictLookup_insert_self]
  · by_cases hc : c < lp
    · simp [hc, dictLookup_insert_self, max_eq_right hc.le]
    · simp [hc, hb, max_eq_left (not_lt.mp hc)]

theorem stepListing_snd_self (st : List (String × ℚ) × List (String × String))
    (lo : String) (lp : ℚ) (lsrc : String) :
    dictLookup (stepListing st (lo, lp, lsrc)).2 lo =
      (match dictLookup st.1 lo with
       | none => some lsrc
       | some c => if c < lp then some lsrc else dictLookup st.2 lo) := by
  unfold stepListing
  rcases hb : dictLookup st.1 lo with _ | c
  · simp [dictLookup_insert_self]
  · by_cases hc : c < lp
    · simp [hc, dictLookup_insert_self]
    · simp [hc]

theorem maxPriceFor_cons_ne (o : String) (l : String × ℚ × String)
    (ls : List (String × ℚ × String)) (h : l.1 ≠ o) :
    maxPriceFor o (l :: ls) = maxPriceFor o ls := by
  simp only [maxPriceFor, if_neg h]

theorem firstSourceAt_cons_ne (o : String) (m : ℚ) (l : String × ℚ × String)
    (ls : List (String × ℚ × String)) (h : l.1 ≠ o) :
    firstSourceAt o m (l :: ls) = firstSourceAt o m ls := by
  have hcond : ¬ (l.1 = o ∧ l.2.1 = m) := fun hh => h hh.1
  simp only [firstSourceAt, if_neg hcond]

theorem srcAfter_cons_ne (b0 : Option ℚ) (s0 : Option String) (o : String)
    (l : String × ℚ × String) (ls : List (String × ℚ × String))
    (h : l.1 ≠ o) : srcAfter b0 s0 o (l :: ls) = srcAfter b0 s0 o ls := by
  unfold srcAfter
  rw [maxPriceFor_cons_ne o l ls h]
  rcases hm : maxPriceFor o ls with _ | m
  · rfl
  · rcases b0 with _ | c
    · exact firstSourceAt_cons_ne o m l ls h
    · by_cases hclt : c < m
      · simp [hclt, firstSourceAt_cons_ne o m l ls h]
      · simp [hclt]

/-! ## The fold computes the per-outcome maximum and the first source
attaining it -/

theorem foldl_stepListing_fst (ls : List (String × ℚ × String)) :
    ∀ (st : List (String × ℚ) × List (String × String)) (o : String),
    dictLookup (ls.foldl stepListing st).1 o =
      optMax (dictLookup st.1 o) (maxPriceFor o ls) := by
  induction ls with
  | nil =>
      intro st o
      rcases h : dictLookup st.1 o with _ | c <;>
        simp [maxPriceFor, optMax, h]
  | cons l ls ih =>
      intro st o
      obtain ⟨lo, lp, lsrc⟩ := l
      rw [List.foldl_cons, ih]
      by_cases ho : lo = o
      · subst ho
        rw [stepListing_fst_self]
        rcases hb : dictLookup st.1 lo with _ | c <;>
          rcases hm : maxPriceFor lo ls with _ | m <;>
            simp [optMax, maxPriceFor, hm, max_assoc]
      · have hne : o ≠ lo := Ne.symm ho
        rw [stepListing_fst_ne st (lo, lp, lsrc) o hne,
          maxPriceFor_cons_ne o (lo, lp, lsrc) ls ho]

theorem foldl_stepListing_snd (ls : List (String × ℚ × String)) :
    ∀ (st : List (String × ℚ) × List (String × String)) (o : String),
    dictLookup (ls.foldl stepListing st).2 o =
      srcAfter (dictLookup st.1 o) (dictLookup st.2 o) o ls := by
  induction ls with
  | nil =>
      intro st o
      simp [srcAfter, maxPriceFor]
  | cons l ls ih =>
      intro st o
      obtain ⟨lo, lp, lsrc⟩ := l
      rw [List.foldl_cons, ih]
      by_cases ho : lo = o
      · subst ho
        rw [stepListing_snd_self, stepListing_fst_self]
        rcases hb : dictLookup st.1 lo with _ | c
        · rcases hm : maxPriceFor lo ls with _ | m
          · simp [srcAfter, maxPriceFor, hm, firstSourceAt]
          · by_cases hpm : lp < m
            · simp [srcAfter, maxPriceFor, hm, firstSourceAt, hpm,
                max_eq_right hpm.le, ne_of_lt hpm]
            · simp [srcAfter, maxPriceFor, hm, firstSourceAt, hpm,
                max_eq_left (not_lt.mp hpm)]
        · by_cases hc : c < lp
          · rcases hm : maxPriceFor lo ls with _ | m
            · simp [srcAfter, maxPriceFor, hm, firstSourceAt, hc,
                max_eq_right hc.le]
            · by_cases hpm : lp < m
              · have hcm : c < max lp m := lt_of_lt_of_le hc (le_max_left lp m)
                simp [srcAfter, maxPriceFor, hm, firstSourceAt, hc, hpm,
                  hc.trans hpm, max_eq_right hc.le, max_eq_right hpm.le, hcm,
                  ne_of_lt hpm]
              · have hcm : c < max lp m := lt_of_lt_of_le hc (le_max_left lp m)
                simp [srcAfter, maxPriceFor, hm, firstSourceAt, hc, hpm,
                  max_eq_right hc.le, max_eq_left (not_lt.mp hpm), hcm]
          · rcases hm : maxPriceFor lo ls with _ | m
            · simp [srcAfter, maxPriceFor, hm, firstSourceAt, hc,
                max_eq_left (not_lt.mp hc)]
            · by_cases hcm : c < m
              · have hlpm : lp < m := lt_of_le_of_lt (not_lt.mp hc) hcm
                have hmax : max lp m = m := max_eq_right hlpm.le
                simp [srcAfter, maxPriceFor, hm, firstSourceAt, hc, hcm,
                  max_eq_left (not_lt.mp hc), hmax, ne_of_lt hlpm]
              · have hnc : ¬ c < max lp m := by
                  rw [not_lt, max_le_iff]
                  exact ⟨not_lt.mp hc, not_lt.mp hcm⟩
                simp [srcAfter, maxPriceFor, hm, firstSourceAt, hc, hcm,
                  max_eq_left (not_lt.mp hc), hnc]
      · have hne : o ≠ lo := Ne.symm ho
        rw [stepListing_snd_ne st (lo, lp, lsrc) o hne,
          stepListing_fst_ne st (lo, lp, lsrc) o hne,
          srcAfter_cons_ne _ _ o (lo, lp, lsrc) ls ho]

/-! ## Lookup characterisation of `bestOddsByOutcome` -/

theorem bestOdds_fst_lookup (bms : List Bookmaker) (wl : List String)
    (o : String) :
    dictLookup (bestOddsByOutcome bms wl).1 o =
      maxPriceFor o (qualifyingListings bms wl) := by
  rw [bestOdds_eq_foldl, foldl_stepListing_fst]
  rcases maxPriceFor o (qualifyingListings bms wl) with _ | m <;>
    simp [optMax, dictLookup]

theorem bestOdds_snd_lookup (bms : List Bookmaker) (wl : List String)
    (o : String) :
    dictLookup (bestOddsByOutcome bms wl).2 o =
      (match maxPriceFor o (qualifyingListings bms wl) with
       | none => none
       | some m => firstSourceAt o m (qualifyingListings bms wl)) := by
  rw [bestOdds_eq_foldl, foldl_stepListing_snd]
  show srcAfter (dictLookup [] o) (dictLookup [] o) o _ = _
  rcases hm : maxPriceFor o (qualifyingListings bms wl) with _ | m <;>
    simp [srcAfter, dictLookup, hm]

/-! ## Properties of `maxPriceFor` and `firstSourceAt` -/

theorem maxPriceFor_mem {o : String} {ls : List (String × ℚ × String)}
    {m : ℚ} (h : maxPriceFor o ls = some m) :
    ∃ l ∈ ls, l.1 = o ∧ l.2.1 = m := by
  induction ls generalizing m with
  | nil => simp [maxPriceFor] at h
  | cons l ls ih =>
      by_cases ho : l.1 = o
      · rw [maxPriceFor, if_pos ho] at h
        rcases hm : maxPriceFor o ls with _ | m0
        · rw [hm] at h
          simp only [Option.some.injEq] at h
          exact ⟨l, List.mem_cons_self l ls, ho, h⟩
        · rw [hm] at h
          simp only [Option.some.injEq] at h
          rcases le_total l.2.1 m0 with hle | hle
          · obtain ⟨l0, hl0, hl0o, hl0m⟩ := ih hm
            refine ⟨l0, List.mem_cons_of_mem _ hl0, hl0o, ?_⟩
            rw [hl0m, ← h, max_eq_right hle]
          · exact ⟨l, List.mem_cons_self l ls, ho, by rw [← h, max_eq_left hle]⟩
      · rw [maxPriceFor_cons_ne o l ls ho] at h
        obtain ⟨l0, hl0, hl0o, hl0m⟩ := ih h
        exact ⟨l0, List.mem_cons_of_mem _ hl0, hl0o, hl0m⟩

theorem maxPriceFor_isSome_of_mem {o : String}
    {ls : List (String × ℚ × String)} (l : String × ℚ × String)
    (hl : l ∈ ls) (ho : l.1 = o) : ∃ m, maxPriceFor o ls = some m := by
  induction ls with
  | nil => simp at hl
  | cons l0 ls ih =>
      by_cases hc : l0.1 = o
      · rw [maxPriceFor, if_pos hc]
        rcases maxPriceFor o ls with _ | m0
        · exact ⟨l0.2.1, rfl⟩
        · exact ⟨max l0.2.1 m0, rfl⟩
      · rcases List.mem_cons.mp hl with he | he
        · subst he; exact absurd ho hc
        · rw [maxPriceFor_cons_ne o l0 ls hc]
          exact ih he

theorem maxPriceFor_ub {o : String} {ls : List (String × ℚ × String)}
    {m : ℚ} (h : maxPriceFor o ls = some m) :
    ∀ l ∈ ls, l.1 = o → l.2.1 ≤ m := by
  induction ls generalizing m with
  | nil => simp
  | cons l ls ih =>
      intro l' hl' ho'
      by_cases ho : l.1 = o
      · rw [maxPriceFor, if_pos ho] at h
        rcases hm : maxPriceFor o ls with _ | m0 <;> rw [hm] at h <;>
          simp only [Option.some.injEq] at h
        · rcases List.mem_cons.mp hl' with h1 | h1
          · subst h1; rw [← h]
          · obtain ⟨m0, hm0⟩ := maxPriceFor_isSome_of_mem l' h1 ho'
            rw [hm0] at hm
            exact absurd hm (by simp)
        · rcases List.mem_cons.mp hl' with h1 | h1
          · subst h1; rw [← h]; exact le_max_left _ _
          · calc l'.2.1 ≤ m0 := ih hm l' h1 ho'
              _ ≤ m := by rw [← h]; exact le_max_right _ _
      · rw [maxPriceFor_cons_ne o l ls ho] at h
        rcases List.mem_cons.mp hl' with h1 | h1
        · subst h1; exact absurd ho' ho
        · exact ih h l' h1 ho'

theorem firstSourceAt_spec {o : String} {m : ℚ}
    {ls : List (String × ℚ × String)} {s : String}
    (h : firstSourceAt o m ls = some s) :
    ∃ pre l post, ls = pre ++ l :: post ∧ l.1 = o ∧ l.2.1 = m ∧ l.2.2 = s ∧
      ∀ l' ∈ pre, ¬(l'.1 = o ∧ l'.2.1 = m) := by
  induction ls with
  | nil => simp [firstSourceAt] at h
  | cons l ls ih =>
      by_cases hc : l.1 = o ∧ l.2.1 = m
      · rw [firstSourceAt, if_pos hc] at h
        simp only [Option.some.injEq] at h
        exact ⟨[], l, ls, by simp, hc.1, hc.2, h, by simp⟩
      · rw [firstSourceAt, if_neg hc] at h
        obtain ⟨pre, l0, post, heq, h1, h2, h3, h4⟩ := ih h
        refine ⟨l :: pre, l0, post, by rw [heq]; rfl, h1, h2, h3, ?_⟩
        intro l' hl'
        rcases List.mem_cons.mp hl' with he | he
        · subst he; exact hc
        · exact h4 l' he

theorem firstSourceAt_isSome {o : String} {m : ℚ}
    {ls : List (String × ℚ × String)} (l : String × ℚ × String)
    (hl : l ∈ ls) (ho : l.1 = o) (hm : l.2.1 = m) :
    ∃ s, firstSourceAt o m ls = some s := by
  induction ls with
  | nil => simp at hl
  | cons l0 ls ih =>
      by_cases hc : l0.1 = o ∧ l0.2.1 = m
      · exact ⟨l0.2.2, by rw [firstSourceAt, if_pos hc]⟩
      · rcases List.mem_cons.mp hl with he | he
        · subst he; exact absurd ⟨ho, hm⟩ hc
        · obtain ⟨s, hs⟩ := ih he
          exact ⟨s, by rw [firstSourceAt, if_neg hc]; exact hs⟩

/-! ## Facts about qualifying listings -/

theorem qualifyOutcome_some {name : String} {out : Outcome}
    {l : String × ℚ × String} (h : qualifyOutcome name out = some l) :
    1 < l.2.1 ∧ l.2.2 = name := by
  obtain ⟨n, p⟩ := out
  rcases n with _ | o
  · simp [qualifyOutcome] at h
  · rcases p with _ | pv
    · simp [qualifyOutcome] at h
    · rcases pv with q | _ | _
      · by_cases hq : q ≤ 1
        · simp [qualifyOutcome, hq] at h
        · simp only [qualifyOutcome, if_neg hq, Option.some.injEq] at h
          rw [← h]
          exact ⟨not_le.mp hq, rfl⟩
      · simp [qualifyOutcome] at h
      · simp [qualifyOutcome] at h

theorem marketsListings_mem {name : String} {mkts : List Market}
    {l : String × ℚ × String} (h : l ∈ marketsListings name mkts) :
    1 < l.2.1 ∧ l.2.2 = name := by
  unfold marketsListings at h
  rw [List.mem_flatMap] at h
  obtain ⟨m, _, hl⟩ := h
  rw [List.mem_filterMap] at hl
  obtain ⟨out, _, hq⟩ := hl
  exact qualifyOutcome_some hq

theorem qualifyingListings_mem {bms : List Bookmaker} {wl : List String}
    {l : String × ℚ × String} (h : l ∈ qualifyingListings bms wl) :
    1 < l.2.1 ∧ (wl = [] ∨ l.2.2 ∈ wl) := by
  unfold qualifyingListings at h
  rw [List.mem_flatMap] at h
  obtain ⟨bm, hbm, hl⟩ := h
  rw [List.mem_filter] at hbm
  have hall : allowedBM wl bm := of_decide_eq_true hbm.2
  obtain ⟨hgt, hname⟩ := marketsListings_mem hl
  refine ⟨hgt, ?_⟩
  rw [hname]
  exact hall

/-! ## Keys of the snapshot -/

theorem stepListing_keys_nodup
    {st : List (String × ℚ) × List (String × String)}
    (h1 : (st.1.map Prod.fst).Nodup) (h2 : (st.2.map Prod.fst).Nodup)
    (l : String × ℚ × String) :
    ((stepListing st l).1.map Prod.fst).Nodup ∧
      ((stepListing st l).2.map Prod.fst).Nodup := by
  unfold stepListing
  rcases dictLookup st.1 l.1 with _ | c
  · exact ⟨dictInsert_keys_nodup h1 _ _, dictInsert_keys_nodup h2 _ _⟩
  · by_cases hc : c < l.2.1
    · simp only [if_pos hc]
      exact ⟨dictInsert_keys_nodup h1 _ _, dictInsert_keys_nodup h2 _ _⟩
    · simp only [if_neg hc]
      exact ⟨h1, h2⟩

theorem foldl_stepListing_keys_nodup (ls : List (String × ℚ × String)) :
    ∀ st : List (String × ℚ) × List (String × String),
    (st.1.map Prod.fst).Nodup → (st.2.map Prod.fst).Nodup →
    (((ls.foldl stepListing st).1.map Prod.fst).Nodup ∧
      ((ls.foldl stepListing st).2.map Prod.fst).Nodup) := by
  induction ls with
  | nil => intro st h1 h2; exact ⟨h1, h2⟩
  | cons l ls ih =>
      intro st h1 h2
      rw [List.foldl_cons]
      obtain ⟨h1', h2'⟩ := stepListing_keys_nodup h1 h2 l
      exact ih _ h1' h2'

theorem bestOdds_keys_nodup (bms : List Bookmaker) (wl : List String) :
    (((bestOddsByOutcome bms wl).1.map Prod.fst).Nodup ∧
      ((bestOddsByOutcome bms wl).2.map Prod.fst).Nodup) := by
  rw [bestOdds_eq_foldl]
  exact foldl_stepListing_keys_nodup _ ([], []) (by simp) (by simp)

theorem bestOdds_mem_iff (bms : List Bookmaker) (wl : List String)
    (o : String) (p : ℚ) :
    (o, p) ∈ (bestOddsByOutcome bms wl).1 ↔
      dictLookup (bestOddsByOutcome bms wl).1 o = some p :=
  ⟨dictLookup_eq_some_of_mem (bestOdds_keys_nodup bms wl).1,
    mem_of_dictLookup_eq_some⟩

theorem maxPriceFor_eq_none_iff (o : String)
    (ls : List (String × ℚ × String)) :
    maxPriceFor o ls = none ↔ o ∉ ls.map Prod.fst := by
  constructor
  · intro h hmem
    rw [List.mem_map] at hmem
    obtain ⟨l, hl, hlo⟩ := hmem
    obtain ⟨m, hm⟩ := maxPriceFor_isSome_of_mem l hl hlo
    rw [hm] at h
    exact absurd h (by simp)
  · intro h
    rcases hm : maxPriceFor o ls with _ | m
    · rfl
    · obtain ⟨l, hl, hlo, _⟩ := maxPriceFor_mem hm
      exact absurd (List.mem_map.mpr ⟨l, hl, hlo⟩) h

theorem bestOdds_keys_mem_iff (bms : List Bookmaker) (wl : List String)
    (o : String) :
    o ∈ (bestOddsByOutcome bms wl).1.map Prod.fst ↔
      o ∈ (qualifyingListings bms wl).map Prod.fst := by
  rw [← not_iff_not, ← dictLookup_eq_none_iff, bestOdds_fst_lookup,
    ← maxPriceFor_eq_none_iff]

theorem bestOdds_length_eq_card (bms : List Bookmaker) (wl : List String) :
    (bestOddsByOutcome bms wl).1.length =
      ((qualifyingListings bms wl).map Prod.fst).toFinset.card := by
  have hnd := (bestOdds_keys_nodup bms wl).1
  have hlen : (bestOddsByOutcome bms wl).1.length =
      ((bestOddsByOutcome bms wl).1.map Prod.fst).length := by
    rw [List.length_map]
  rw [hlen, ← List.toFinset_card_of_nodup hnd]
  congr 1
  ext a
  simp only [List.mem_toFinset]
  exact bestOdds_keys_mem_iff bms wl a

/-! ## Shape of `findArbsForEvent` -/

theorem findArbs_length_le_one (ev : Event) (t : ℚ) (wl : List String) :
    (findArbsForEvent ev t wl).length ≤ 1 := by
  simp only [findArbsForEvent]
  split_ifs <;> simp

theorem findArbs_ne_nil_iff (ev : Event) (t : ℚ) (wl : List String) :
    findArbsForEvent ev t wl ≠ [] ↔
      ev.bookmakers.getD [] ≠ [] ∧
      ((bestOddsByOutcome (ev.bookmakers.getD []) wl).1.length = 2 ∨
        (bestOddsByOutcome (ev.bookmakers.getD []) wl).1.length = 3) ∧
      t < arbEdge (bestOddsByOutcome (ev.bookmakers.getD []) wl).1 := by
  unfold findArbsForEvent
  by_cases h1 : ev.bookmakers.getD [] = []
  · simp [h1]
  · rw [if_neg h1]
    by_cases h2 : (bestOddsByOutcome (ev.bookmakers.getD []) wl).1.length = 2 ∨
        (bestOddsByOutcome (ev.bookmakers.getD []) wl).1.length = 3
    · rw [if_pos h2]
      by_cases h3 : arbEdge (bestOddsByOutcome (ev.bookmakers.getD []) wl).1 ≤ t
      · simp [h3, h1, h2, not_lt.mpr h3]
      · simp [h3, h1, h2, lt_of_not_le h3]
    · simp [h2, h1]

theorem findArbs_eq_nil_of_edge_le (ev : Event) (t : ℚ) (wl : List String)
    (h : arbEdge (bestOddsByOutcome (ev.bookmakers.getD []) wl).1 ≤ t) :
    findArbsForEvent ev t wl = [] := by
  by_contra hne
  exact absurd ((findArbs_ne_nil_iff ev t wl).mp hne).2.2 (not_lt.mpr h)

/-! ## Algebraic facts about stakes and edge -/

theorem stakesForEdge_eq (best : List (String × ℚ)) (bankroll : ℚ) :
    stakesForEdge best bankroll =
      best.map (fun kv => (kv.1,
        bankroll * (1 / kv.2) / (best.map (fun kv => 1 / kv.2)).sum)) := by
  unfold stakesForEdge
  simp only [List.map_map]
  rfl

theorem invSum_pos {best : List (String × ℚ)} (hne : best ≠ [])
    (hpos : ∀ kv ∈ best, 0 < kv.2) :
    0 < (best.map (fun kv => 1 / kv.2)).sum := by
  apply List.sum_pos
  · intro x hx
    rw [List.mem_map] at hx
    obtain ⟨kv, hkv, rfl⟩ := hx
    exact div_pos one_pos (hpos kv hkv)
  · simpa using hne

theorem zip_map_left_self {α β : Type} (l : List α) (f : α → β) :
    (l.map f).zip l = l.map (fun x => (f x, x)) := by
  induction l with
  | nil => rfl
  | cons a l ih => simp [ih]

theorem mem_lt_sum {l : List ℚ} {x : ℚ} (hx : x ∈ l)
    (hpos : ∀ y ∈ l, 0 < y) (hlen : 2 ≤ l.length) : x < l.sum := by
  rcases l with _ | ⟨a, rest⟩
  · simp at hx
  · have hrest_ne : rest ≠ [] := by
      intro h
      rw [h] at hlen
      simp at hlen
    have hrest_pos : ∀ y ∈ rest, 0 < y := fun y hy =>
      hpos y (List.mem_cons_of_mem _ hy)
    rcases List.mem_cons.mp hx with he | he
    · subst he
      have : 0 < rest.sum := List.sum_pos rest hrest_pos hrest_ne
      rw [List.sum_cons]
      linarith
    · have h1 : x ≤ rest.sum :=
        List.single_le_sum (fun y hy => (hrest_pos y hy).le) x he
      have h2 : 0 < a := hpos a (List.mem_cons_self a rest)
      rw [List.sum_cons]
      linarith

theorem sum_inv_set_le (best : List (String × ℚ)) :
    ∀ (i : ℕ) (hi : i < best.length) (p' : ℚ),
    0 < (best.get ⟨i, hi⟩).2 → (best.get ⟨i, hi⟩).2 ≤ p' →
    ((best.set i ((best.get ⟨i, hi⟩).1, p')).map (fun kv => 1 / kv.2)).sum ≤
      (best.map (fun kv => 1 / kv.2)).sum := by
  induction best with
  | nil => intro i hi; simp at hi
  | cons kv rest ih =>
      intro i hi p' hpos hle
      cases i with
      | zero =>
          simp only [List.set_cons_zero, List.map_cons, List.sum_cons]
          have : 1 / p' ≤ 1 / kv.2 := by
            apply one_div_le_one_div_of_le hpos
            simpa using hle
          simp only [List.get] at this ⊢
          linarith
      | succ n =>
          simp only [List.set_cons_succ, List.map_cons, List.sum_cons]
          have hn : n < rest.length := by
            simpa [Nat.succ_lt_succ_iff] using hi
          have hget : (kv :: rest).get ⟨n + 1, hi⟩ = rest.get ⟨n, hn⟩ := rfl
          rw [hget] at hpos hle ⊢
          have := ih n hn p' hpos hle
          linarith

theorem bestOdds_price_gt_one (bms : List Bookmaker) (wl : List String) :
    ∀ kv ∈ (bestOddsByOutcome bms wl).1, 1 < kv.2 := by
  intro kv hkv
  obtain ⟨o, p⟩ := kv
  rw [bestOdds_mem_iff, bestOdds_fst_lookup] at hkv
  obtain ⟨l, hl, _, hlp⟩ := maxPriceFor_mem hkv
  have := (qualifyingListings_mem hl).1
  rw [hlp] at this
  exact this

/-! ## Concrete snapshot evaluations

Best-price selection only parses, compares and copies prices — it does no
rational arithmetic — so these evaluate by kernel reduction. -/

theorem bestOdds_evZeroEdge_eval :
    bestOddsByOutcome (evZeroEdge.bookmakers.getD []) [] =
      ([("A", 2), ("B", 2)], [("A", "x"), ("B", "x")]) := by decide

theorem bestOdds_evTwoWay_eval :
    bestOddsByOutcome (evTwoWay.bookmakers.getD []) [] =
      ([("A", mkRat 21 10), ("B", mkRat 41 20)],
        [("A", "x"), ("B", "y")]) := by decide

theorem bestOdds_evMidEdge_eval :
    bestOddsByOutcome (evMidEdge.bookmakers.getD []) [] =
      ([("A", 2), ("B", mkRat 1000 497)], [("A", "x"), ("B", "x")]) := by
  decide

/-! ## The claims -/

/-- C1: for every Best-Price Snapshot with 2 or 3 outcomes, all prices
greater than 1, and every bankroll, the stake allocation
`stake = bankroll * (1/price) / Σ(1/price)` gives every outcome the same
payout `stake_i * price_i = bankroll / Σ(1/price_j)`, and the stakes sum
to the bankroll exactly. -/
theorem C1_stakes_payout_and_sum (best : List (String × ℚ)) (bankroll : ℚ)
    (hlen : best.length = 2 ∨ best.length = 3)
    (hgt : ∀ kv ∈ best, 1 < kv.2) :
    (∀ pr ∈ (stakesForEdge best bankroll).zip best,
        pr.1.2 * pr.2.2 = bankroll / (best.map (fun kv => 1 / kv.2)).sum) ∧
    ((stakesForEdge best bankroll).map Prod.snd).sum = bankroll := by
  have hne : best ≠ [] := by
    rcases hlen with h | h <;> (intro he; rw [he] at h; simp at h)
  have hpos : ∀ kv ∈ best, 0 < kv.2 := fun kv hkv =>
    lt_trans one_pos (hgt kv hkv)
  have hS : 0 < (best.map (fun kv => 1 / kv.2)).sum := invSum_pos hne hpos
  constructor
  · intro pr hpr
    rw [stakesForEdge_eq, zip_map_left_self, List.mem_map] at hpr
    obtain ⟨kv, hkv, rfl⟩ := hpr
    have hp : kv.2 ≠ 0 := (hpos kv hkv).ne'
    dsimp only
    field_simp
    ring
  · rw [stakesForEdge_eq, List.map_map]
    have hfun : (Prod.snd ∘ (fun kv : String × ℚ => (kv.1,
        bankroll * (1 / kv.2) / (best.map (fun kv => 1 / kv.2)).sum))) =
        fun kv : String × ℚ =>
          (bankroll / (best.map (fun kv => 1 / kv.2)).sum) * (1 / kv.2) := by
      funext kv
      simp only [Function.comp_apply]
      ring
    rw [hfun, List.sum_map_mul_left, div_mul_cancel₀ _ hS.ne']

theorem C1_witness :
    (∀ pr ∈ (stakesForEdge [("A", 2), ("B", 2)] 100).zip
        [("A", (2 : ℚ)), ("B", 2)],
        pr.1.2 * pr.2.2 =
          100 / (([("A", (2 : ℚ)), ("B", 2)].map (fun kv => 1 / kv.2)).sum)) ∧
    ((stakesForEdge [("A", (2 : ℚ)), ("B", 2)] 100).map Prod.snd).sum = 100 :=
  C1_stakes_payout_and_sum [("A", 2), ("B", 2)] 100 (Or.inl rfl) (by decide)

/-- C2: for every Best-Price Snapshot, the computed edge percentage is
`(1 − Σ(1/price_i)) × 100`, summed over all outcomes of the snapshot. -/
theorem C2_edge_formula (best : List (String × ℚ)) :
    arbEdge best = (1 - (best.map (fun kv => 1 / kv.2)).sum) * 100 := rfl

/-- C3: for every listing collection, best-price selection records, per
outcome label, the maximum qualifying price and the bookmaker offering
it; the recorded source is the first listing (in iteration order)
attaining that maximum, so price ties keep the first bookmaker
encountered. -/
theorem C3_best_price_max_first (bms : List Bookmaker) (wl : List String)
    (o : String) (h : o ∈ (qualifyingListings bms wl).map Prod.fst) :
    ∃ m, dictLookup (bestOddsByOutcome bms wl).1 o = some m ∧
      (∃ l ∈ qualifyingListings bms wl, l.1 = o ∧ l.2.1 = m) ∧
      (∀ l ∈ qualifyingListings bms wl, l.1 = o → l.2.1 ≤ m) ∧
      ∃ pre l post, qualifyingListings bms wl = pre ++ l :: post ∧
        l.1 = o ∧ l.2.1 = m ∧
        dictLookup (bestOddsByOutcome bms wl).2 o = some l.2.2 ∧
        ∀ l' ∈ pre, ¬(l'.1 = o ∧ l'.2.1 = m) := by
  rw [List.mem_map] at h
  obtain ⟨l0, hl0, hl0o⟩ := h
  obtain ⟨m, hm⟩ := maxPriceFor_isSome_of_mem l0 hl0 hl0o
  refine ⟨m, ?_, maxPriceFor_mem hm, maxPriceFor_ub hm, ?_⟩
  · rw [bestOdds_fst_lookup, hm]
  · obtain ⟨l1, hl1, h1o, h1m⟩ := maxPriceFor_mem hm
    obtain ⟨s, hs⟩ := firstSourceAt_isSome l1 hl1 h1o h1m
    obtain ⟨pre, l, post, heq, hlo, hlm, hls, hpre⟩ := firstSourceAt_spec hs
    refine ⟨pre, l, post, heq, hlo, hlm, ?_, hpre⟩
    rw [bestOdds_snd_lookup]
    simp only [hm]
    rw [hs, hls]

theorem C3_witness :
    ∃ m, dictLookup (bestOddsByOutcome bmsTie []).1 "A" = some m ∧
      (∃ l ∈ qualifyingListings bmsTie [], l.1 = "A" ∧ l.2.1 = m) ∧
      (∀ l ∈ qualifyingListings bmsTie [], l.1 = "A" → l.2.1 ≤ m) ∧
      ∃ pre l post, qualifyingListings bmsTie [] = pre ++ l :: post ∧
        l.1 = "A" ∧ l.2.1 = m ∧
        dictLookup (bestOddsByOutcome bmsTie []).2 "A" = some l.2.2 ∧
        ∀ l' ∈ pre, ¬(l'.1 = "A" ∧ l'.2.1 = m) :=
  C3_best_price_max_first bmsTie [] "A" (by decide)

/-- C4 (amended): an opportunity is produced only when the unrounded edge
is strictly greater than the threshold (so an event exactly at the
threshold produces none), and — provided the configured threshold is
nonnegative, as the source defaults are — an event with edge ≤ 0 produces
no opportunity.  (With a negative threshold the code does report events
whose edge is ≤ 0; see the counterexample.) -/
theorem C4_threshold_strict (ev : Event) (t : ℚ) (wl : List String) :
    (arbEdge (bestOddsByOutcome (ev.bookmakers.getD []) wl).1 ≤ t →
      findArbsForEvent ev t wl = []) ∧
    (findArbsForEvent ev t wl ≠ [] →
      t < arbEdge (bestOddsByOutcome (ev.bookmakers.getD []) wl).1) ∧
    (0 ≤ t → arbEdge (bestOddsByOutcome (ev.bookmakers.getD []) wl).1 ≤ 0 →
      findArbsForEvent ev t wl = []) := by
  refine ⟨?_, ?_, ?_⟩
  · intro h
    by_contra hne
    exact absurd ((findArbs_ne_nil_iff ev t wl).mp hne).2.2 (not_lt.mpr h)
  · intro hne
    exact ((findArbs_ne_nil_iff ev t wl).mp hne).2.2
  · intro ht hedge
    by_contra hne
    have := ((findArbs_ne_nil_iff ev t wl).mp hne).2.2
    linarith

theorem C4_witness : findArbsForEvent evZeroEdge 5 [] = [] :=
  (C4_threshold_strict evZeroEdge 5 []).1 (by
    rw [bestOdds_evZeroEdge_eval]
    norm_num [arbEdge])

/-- C4 counterexample: for the event quoting both outcomes at price 2.0
the computed edge is exactly 0 (≤ 0), yet with the configured threshold
−1 an opportunity is produced: "an event with edge ≤ 0 produces no
opportunity" fails for negative thresholds, because the code only
compares `edge <= min_edge_pct`. -/
theorem C4_counterexample :
    arbEdge (bestOddsByOutcome (evZeroEdge.bookmakers.getD []) []).1 ≤ 0 ∧
    findArbsForEvent evZeroEdge (-1) [] ≠ [] := by
  constructor
  · rw [bestOdds_evZeroEdge_eval]
    norm_num [arbEdge]
  · rw [findArbs_ne_nil_iff]
    refine ⟨by decide, ?_, ?_⟩
    · rw [bestOdds_evZeroEdge_eval]
      left
      rfl
    · rw [bestOdds_evZeroEdge_eval]
      norm_num [arbEdge]

/-- C5: every price in a Best-Price Snapshot is strictly greater than 1
and stems from a qualifying listing (one whose raw price parsed to a
finite number > 1.0) — so listings with unparseable, non-finite or ≤ 1.0
prices (including exactly 1.0, even when it would otherwise be best)
never appear. -/
theorem C5_no_invalid_price_in_snapshot (bms : List Bookmaker)
    (wl : List String) (o : String) (p : ℚ)
    (h : (o, p) ∈ (bestOddsByOutcome bms wl).1) :
    1 < p ∧ ∃ l ∈ qualifyingListings bms wl, l.1 = o ∧ l.2.1 = p := by
  rw [bestOdds_mem_iff, bestOdds_fst_lookup] at h
  refine ⟨?_, maxPriceFor_mem h⟩
  obtain ⟨l, hl, _, hlp⟩ := maxPriceFor_mem h
  have := (qualifyingListings_mem hl).1
  rw [hlp] at this
  exact this

theorem C5_witness :
    1 < mkRat 3 2 ∧
      ∃ l ∈ qualifyingListings bmsPriceOne [], l.1 = "A" ∧ l.2.1 = mkRat 3 2 :=
  C5_no_invalid_price_in_snapshot bmsPriceOne [] "A" (mkRat 3 2) (by decide)

/-- C6: the engine returns zero or one opportunity per event, and an
event whose qualifying listings cover a number of distinct outcome labels
other than 2 or 3 produces no opportunity (the function is total, so no
error is raised). -/
theorem C6_outcome_count_gate (ev : Event) (t : ℚ) (wl : List String) :
    (findArbsForEvent ev t wl).length ≤ 1 ∧
    (¬(((qualifyingListings (ev.bookmakers.getD []) wl).map
          Prod.fst).toFinset.card = 2 ∨
        ((qualifyingListings (ev.bookmakers.getD []) wl).map
          Prod.fst).toFinset.card = 3) →
      findArbsForEvent ev t wl = []) := by
  refine ⟨findArbs_length_le_one ev t wl, ?_⟩
  intro h
  by_contra hne
  have h2 := ((findArbs_ne_nil_iff ev t wl).mp hne).2.1
  rw [bestOdds_length_eq_card] at h2
  exact h h2

theorem C6_witness :
    findArbsForEvent (fixtureEvent [fixtureBM "x" [("A", 2)]]) (1 / 2) [] =
      [] :=
  (C6_outcome_count_gate (fixtureEvent [fixtureBM "x" [("A", 2)]])
    (1 / 2) []).2 (by decide)

/-- C7 (amended): selection keeps exactly the bookmakers whose
lower-cased identifier is literally an entry of the allow-list (all of
them when the allow-list is empty): filtering the input to the accepted
bookmakers changes nothing, and every recorded source book is, for a
non-empty allow-list, literally one of its entries.  Only the bookmaker
identifier is lower-cased; allow-list entries are compared as given (the
driver lower-cases them at configuration time). -/
theorem C7_allowlist_literal (bms : List Bookmaker) (wl : List String) :
    bestOddsByOutcome bms wl =
      bestOddsByOutcome (bms.filter (fun bm => decide (allowedBM wl bm))) wl ∧
    (∀ o s, dictLookup (bestOddsByOutcome bms wl).2 o = some s →
      wl = [] ∨ s ∈ wl) := by
  constructor
  · rw [bestOdds_eq_foldl, bestOdds_eq_foldl]
    unfold qualifyingListings
    rw [List.filter_filter]
    simp only [Bool.and_self]
  · intro o s h
    rw [bestOdds_snd_lookup] at h
    rcases hm : maxPriceFor o (qualifyingListings bms wl) with _ | m
    · rw [hm] at h
      simp at h
    · simp only [hm] at h
      obtain ⟨pre, l, post, heq, _, _, hls, _⟩ := firstSourceAt_spec h
      have hmem : l ∈ qualifyingListings bms wl := by
        rw [heq]
        exact List.mem_append_right _ (List.mem_cons_self _ _)
      have hwl := (qualifyingListings_mem hmem).2
      rwa [hls] at hwl

theorem C7_witness : ["bet365"] = [] ∨ "bet365" ∈ ["bet365"] :=
  (C7_allowlist_literal bmsBet365 ["bet365"]).2 "A" "bet365" (by decide)

/-- C7 counterexample: bookmaker `Bet365` lower-cases to `bet365`, which
case-insensitively matches the allow-list entry `BET365`; yet with
allow-list `["BET365"]` the bookmaker is excluded entirely, while the
lower-case entry `["bet365"]` keeps it: membership is not
case-insensitive in the allow-list entries. -/
theorem C7_counterexample :
    bmName (fixtureBM "Bet365" [("A", 2)]) = "bet365" ∧
    "bet365" ∈ ["BET365"].map strLower ∧
    bestOddsByOutcome bmsBet365 ["BET365"] = ([], []) ∧
    bestOddsByOutcome bmsBet365 ["bet365"] =
      ([("A", 2)], [("A", "bet365")]) := by
  refine ⟨by decide, by decide, by decide, by decide⟩

/-- C8: edge computation is monotonic — raising the price of one outcome
(holding the others fixed) never decreases the computed edge. -/
theorem C8_edge_monotone (best : List (String × ℚ)) (i : ℕ)
    (hi : i < best.length) (q : ℚ) (hpos : 0 < (best.get ⟨i, hi⟩).2)
    (hle : (best.get ⟨i, hi⟩).2 ≤ q) :
    arbEdge best ≤ arbEdge (best.set i ((best.get ⟨i, hi⟩).1, q)) := by
  simp only [arbEdge]
  have h := sum_inv_set_le best i hi q hpos hle
  have h100 : (0 : ℚ) ≤ 100 := by norm_num
  apply mul_le_mul_of_nonneg_right _ h100
  linarith

theorem C8_witness :
    arbEdge [("A", (2 : ℚ)), ("B", 2)] ≤ arbEdge [("A", (3 : ℚ)), ("B", 2)] :=
  C8_edge_monotone [("A", 2), ("B", 2)] 0 (by decide) 3 (by decide) (by decide)

/-- C9 (amended): the engine function's very own default threshold is
0.25 — used when callers pass no threshold — while the driver's
configured minimum edge (`MIN_EDGE_PCT`) defaults to 0.5 when the
environment sets none and is always passed explicitly by the driver. -/
theorem C9_default_thresholds :
    defaultMinEdgePct = 25 / 100 ∧ MIN_EDGE_PCT none = 5 / 10 ∧
    ∀ ev wl, findArbsForEventDefault ev wl =
      findArbsForEvent ev defaultMinEdgePct wl :=
  ⟨rfl, rfl, fun _ _ => rfl⟩

/-- C9 counterexample: the engine's parameter default is 0.25, not 0.5:
on the event with edge exactly 0.3% a call without threshold reports an
opportunity, while threshold 0.5 reports none. -/
theorem C9_counterexample :
    defaultMinEdgePct ≠ 5 / 10 ∧
    findArbsForEventDefault evMidEdge [] ≠ [] ∧
    findArbsForEvent evMidEdge (5 / 10) [] = [] := by
  refine ⟨by norm_num [defaultMinEdgePct], ?_, ?_⟩
  · unfold findArbsForEventDefault
    rw [findArbs_ne_nil_iff]
    refine ⟨by decide, ?_, ?_⟩
    · rw [bestOdds_evMidEdge_eval]
      left
      rfl
    · rw [bestOdds_evMidEdge_eval]
      norm_num [arbEdge, defaultMinEdgePct, Rat.mkRat_eq_div]
  · apply findArbs_eq_nil_of_edge_le
    rw [bestOdds_evMidEdge_eval]
    norm_num [arbEdge, Rat.mkRat_eq_div]

/-- C10: whenever an opportunity is produced, every per-outcome stake of
the (unrounded) allocation over the notional bankroll 100 is strictly
positive and strictly below 100, because each snapshot price exceeds 1
and the snapshot has at least two outcomes. -/
theorem C10_stakes_bounds (ev : Event) (t : ℚ) (wl : List String)
    (h : findArbsForEvent ev t wl ≠ []) :
    ∀ kv ∈ stakesForEdge (bestOddsByOutcome (ev.bookmakers.getD []) wl).1 100,
      0 < kv.2 ∧ kv.2 < 100 := by
  obtain ⟨-, hlen, -⟩ := (findArbs_ne_nil_iff ev t wl).mp h
  have hgt : ∀ kv ∈ (bestOddsByOutcome (ev.bookmakers.getD []) wl).1,
      1 < kv.2 := bestOdds_price_gt_one _ _
  have hpos : ∀ kv ∈ (bestOddsByOutcome (ev.bookmakers.getD []) wl).1,
      0 < kv.2 := fun kv hkv => lt_trans one_pos (hgt kv hkv)
  have hne : (bestOddsByOutcome (ev.bookmakers.getD []) wl).1 ≠ [] := by
    rcases hlen with h2 | h2 <;> (intro he; rw [he] at h2; simp at h2)
  have h2le : 2 ≤ (bestOddsByOutcome (ev.bookmakers.getD []) wl).1.length := by
    rcases hlen with h2 | h2 <;> omega
  have hS : 0 < ((bestOddsByOutcome (ev.bookmakers.getD []) wl).1.map
      (fun kv => 1 / kv.2)).sum := invSum_pos hne hpos
  intro kv hkv
  rw [stakesForEdge_eq, List.mem_map] at hkv
  obtain ⟨kv0, hkv0, rfl⟩ := hkv
  have hp : 0 < kv0.2 := hpos kv0 hkv0
  dsimp only
  constructor
  · apply div_pos _ hS
    have : 0 < 1 / kv0.2 := div_pos one_pos hp
    nlinarith
  · rw [div_lt_iff₀ hS]
    have hmem : 1 / kv0.2 ∈
        (bestOddsByOutcome (ev.bookmakers.getD []) wl).1.map
          (fun kv => 1 / kv.2) := List.mem_map.mpr ⟨kv0, hkv0, rfl⟩
    have hposl : ∀ y ∈ (bestOddsByOutcome (ev.bookmakers.getD []) wl).1.map
        (fun kv => 1 / kv.2), 0 < y := by
      intro y hy
      rw [List.mem_map] at hy
      obtain ⟨kv1, hkv1, rfl⟩ := hy
      exact div_pos one_pos (hpos kv1 hkv1)
    have hlenm : 2 ≤ ((bestOddsByOutcome (ev.bookmakers.getD []) wl).1.map
        (fun kv => 1 / kv.2)).length := by
      rw [List.length_map]
      exact h2le
    have hlt := mem_lt_sum hmem hposl hlenm
    linarith

theorem C10_witness : 0 < mkRat 4100 83 ∧ mkRat 4100 83 < 100 :=
  C10_stakes_bounds evTwoWay (1 / 2) []
    (by
      rw [findArbs_ne_nil_iff]
      refine ⟨by decide, ?_, ?_⟩
      · rw [bestOdds_evTwoWay_eval]
        left
        rfl
      · rw [bestOdds_evTwoWay_eval]
        norm_num [arbEdge, Rat.mkRat_eq_div])
    ("A", mkRat 4100 83)
    (by
      rw [bestOdds_evTwoWay_eval]
      have hst : stakesForEdge [("A", mkRat 21 10), ("B", mkRat 41 20)] 100 =
          [("A", mkRat 4100 83), ("B", mkRat 4200 83)] := by
        norm_num [stakesForEdge, Rat.mkRat_eq_div]
      rw [hst]
      exact List.mem_cons_self _ _)

end ArbBot
